import Mathlib

/-!
Shallow embedding of the md-profiler trace converter (src/profiling.rs,
src/intervals.rs) and proofs about its specification claims.

Modelling conventions:
* Byte buffers are `List Nat` with entries below 256; multi-byte fields are
  read little-endian (the Rust uses `from_ne_bytes` on a little-endian host).
* Rust `u32` values are `Nat`; where the code can overflow 32-bit arithmetic
  (the `stack_pointer + 4` frame-matching comparison) the wrap is modelled
  explicitly with `% 4294967296`.  The `u64` cycle accumulator cannot come
  near 2^64 for any physically representable trace, so it is a plain `Nat`.
* Rust panics are modelled as `Option.none` (a panic aborts the conversion
  and produces no output).
* `f64` microsecond conversion is modelled over `ℚ`; the claims under study
  only ever compare cycle counts converted through the same function.
-/

/-- Packet payload variants, mirroring `ProfilingPacketInner` in profiling.rs. -/
inductive ProfilingPacketInner where
  | SubroutineEnter (target_subroutine : Nat)
  | SubroutineExit
  | InterruptEnter (target_interrupt : Nat)
  | InterruptExit
  | HInt
  | VInt
  | ManualBreakpoint (pc : Nat)
  deriving DecidableEq, Repr

/-- Decoded packet, mirroring `ProfilingPacket` in profiling.rs. -/
structure ProfilingPacket where
  cycle : Nat
  stack_pointer : Nat
  inner : ProfilingPacketInner
  deriving DecidableEq, Repr

/-- Mirror of `TraceEventArgs` in profiling.rs. -/
structure TraceEventArgs where
  name : Option String
  sort_index : Option Nat
  deriving DecidableEq, Repr

/-- Mirror of `TraceEvent` in profiling.rs (`ts`/`dur` over ℚ, see header). -/
structure TraceEvent where
  name : String
  ph : Char
  ts : ℚ
  dur : ℚ
  pid : Nat
  tid : Nat
  args : Option TraceEventArgs
  s : Option Char
  deriving DecidableEq, Repr

/-- Mirror of `ParsedProfilingFile` in profiling.rs. -/
structure ParsedProfilingFile where
  packets : List ProfilingPacket
  mclk : ℚ
  m68k_divider : Nat
  deriving DecidableEq, Repr

/-- Mirror of `cycle_to_us` in profiling.rs. -/
def cycle_to_us (cycle : Nat) (mclk : ℚ) : ℚ :=
  (cycle : ℚ) / mclk * 1000000

/-- Little-endian value of four bytes, as read by `u32::from_ne_bytes`. -/
def le4 (b0 b1 b2 b3 : Nat) : Nat :=
  b0 + 256 * b1 + 65536 * b2 + 16777216 * b3

/-- Little-endian 32-bit read at offset `i` of a byte buffer (used for the
header fields, whose bounds are checked by the caller). -/
def le32 (input : List Nat) (i : Nat) : Nat :=
  le4 (input.getD i 0) (input.getD (i+1) 0) (input.getD (i+2) 0) (input.getD (i+3) 0)

/-- The packet-decoding loop of `read_profiling_file` (profiling.rs lines
86-132), transcribed over the byte stream that follows the 256-byte header.
Each step reads a 1-byte tag, a 4-byte relative cycle, a 4-byte stack
pointer, and a type-dependent payload; tag 6 (`PROFILER_PACKET_ADJUST_CYCLES`)
adds its relative-cycle field to `cycle_offset` and emits nothing; a tag
above 7 or a truncated packet panics (`none`). -/
def decodeLoop : List Nat → Nat → Option (List ProfilingPacket)
  | [], _ => some []
  | 0 :: c0 :: c1 :: c2 :: c3 :: s0 :: s1 :: s2 :: s3 :: a0 :: a1 :: a2 :: a3 :: rest, off =>
    (decodeLoop rest off).map
      (fun ps => ⟨off + le4 c0 c1 c2 c3, le4 s0 s1 s2 s3,
        .SubroutineEnter (le4 a0 a1 a2 a3)⟩ :: ps)
  | 1 :: c0 :: c1 :: c2 :: c3 :: s0 :: s1 :: s2 :: s3 :: rest, off =>
    (decodeLoop rest off).map
      (fun ps => ⟨off + le4 c0 c1 c2 c3, le4 s0 s1 s2 s3, .SubroutineExit⟩ :: ps)
  | 2 :: c0 :: c1 :: c2 :: c3 :: s0 :: s1 :: s2 :: s3 :: a0 :: a1 :: a2 :: a3 :: rest, off =>
    (decodeLoop rest off).map
      (fun ps => ⟨off + le4 c0 c1 c2 c3, le4 s0 s1 s2 s3,
        .InterruptEnter (le4 a0 a1 a2 a3)⟩ :: ps)
  | 3 :: c0 :: c1 :: c2 :: c3 :: s0 :: s1 :: s2 :: s3 :: rest, off =>
    (decodeLoop rest off).map
      (fun ps => ⟨off + le4 c0 c1 c2 c3, le4 s0 s1 s2 s3, .InterruptExit⟩ :: ps)
  | 4 :: c0 :: c1 :: c2 :: c3 :: s0 :: s1 :: s2 :: s3 :: rest, off =>
    (decodeLoop rest off).map
      (fun ps => ⟨off + le4 c0 c1 c2 c3, le4 s0 s1 s2 s3, .HInt⟩ :: ps)
  | 5 :: c0 :: c1 :: c2 :: c3 :: s0 :: s1 :: s2 :: s3 :: rest, off =>
    (decodeLoop rest off).map
      (fun ps => ⟨off + le4 c0 c1 c2 c3, le4 s0 s1 s2 s3, .VInt⟩ :: ps)
  | 6 :: c0 :: c1 :: c2 :: c3 :: _ :: _ :: _ :: _ :: rest, off =>
    decodeLoop rest (off + le4 c0 c1 c2 c3)
  | 7 :: c0 :: c1 :: c2 :: c3 :: s0 :: s1 :: s2 :: s3 :: a0 :: a1 :: a2 :: a3 :: rest, off =>
    (decodeLoop rest off).map
      (fun ps => ⟨off + le4 c0 c1 c2 c3, le4 s0 s1 s2 s3,
        .ManualBreakpoint (le4 a0 a1 a2 a3)⟩ :: ps)
  | _ :: _, _ => none

/-- Mirror of `read_profiling_file` (profiling.rs lines 75-138): reads the
header fields (`input[3]` is only a version warning and has no semantic
effect; `mclk` at offset 4, `m68k_divider` at offset 8 — an input shorter
than 12 bytes panics on the header reads), then decodes the packet stream
starting at offset 256 with `cycle_offset` 0. -/
def read_profiling_file (input : List Nat) : Option ParsedProfilingFile :=
  if 12 ≤ input.length then
    (decodeLoop (input.drop 256) 0).map
      (fun packets => ⟨packets, (le32 input 4 : ℚ), le32 input 8⟩)
  else none

/-- Raw (purely syntactic) packet variants: the eight wire tags 0-7,
including the cycle-offset-adjustment packets that `decodeLoop` consumes
without emitting. -/
inductive RawInner where
  | subEnter (target : Nat)
  | subExit
  | intEnter (target : Nat)
  | intExit
  | hblank
  | vblank
  | adjust
  | manualBp (pc : Nat)
  deriving DecidableEq, Repr

/-- A raw packet: relative cycle and stack pointer exactly as on the wire. -/
structure RawPacket where
  rcycle : Nat
  sp : Nat
  inner : RawInner
  deriving DecidableEq, Repr

/-- Syntactic layer of the decoding loop: same byte layout as `decodeLoop`,
but keeps every packet (including tag 6) with its raw relative cycle. -/
def parseRaw : List Nat → Option (List RawPacket)
  | [] => some []
  | 0 :: c0 :: c1 :: c2 :: c3 :: s0 :: s1 :: s2 :: s3 :: a0 :: a1 :: a2 :: a3 :: rest =>
    (parseRaw rest).map
      (fun ps => ⟨le4 c0 c1 c2 c3, le4 s0 s1 s2 s3, .subEnter (le4 a0 a1 a2 a3)⟩ :: ps)
  | 1 :: c0 :: c1 :: c2 :: c3 :: s0 :: s1 :: s2 :: s3 :: rest =>
    (parseRaw rest).map
      (fun ps => ⟨le4 c0 c1 c2 c3, le4 s0 s1 s2 s3, .subExit⟩ :: ps)
  | 2 :: c0 :: c1 :: c2 :: c3 :: s0 :: s1 :: s2 :: s3 :: a0 :: a1 :: a2 :: a3 :: rest =>
    (parseRaw rest).map
      (fun ps => ⟨le4 c0 c1 c2 c3, le4 s0 s1 s2 s3, .intEnter (le4 a0 a1 a2 a3)⟩ :: ps)
  | 3 :: c0 :: c1 :: c2 :: c3 :: s0 :: s1 :: s2 :: s3 :: rest =>
    (parseRaw rest).map
      (fun ps => ⟨le4 c0 c1 c2 c3, le4 s0 s1 s2 s3, .intExit⟩ :: ps)
  | 4 :: c0 :: c1 :: c2 :: c3 :: s0 :: s1 :: s2 :: s3 :: rest =>
    (parseRaw rest).map
      (fun ps => ⟨le4 c0 c1 c2 c3, le4 s0 s1 s2 s3, .hblank⟩ :: ps)
  | 5 :: c0 :: c1 :: c2 :: c3 :: s0 :: s1 :: s2 :: s3 :: rest =>
    (parseRaw rest).map
      (fun ps => ⟨le4 c0 c1 c2 c3, le4 s0 s1 s2 s3, .vblank⟩ :: ps)
  | 6 :: c0 :: c1 :: c2 :: c3 :: s0 :: s1 :: s2 :: s3 :: rest =>
    (parseRaw rest).map
      (fun ps => ⟨le4 c0 c1 c2 c3, le4 s0 s1 s2 s3, .adjust⟩ :: ps)
  | 7 :: c0 :: c1 :: c2 :: c3 :: s0 :: s1 :: s2 :: s3 :: a0 :: a1 :: a2 :: a3 :: rest =>
    (parseRaw rest).map
      (fun ps => ⟨le4 c0 c1 c2 c3, le4 s0 s1 s2 s3, .manualBp (le4 a0 a1 a2 a3)⟩ :: ps)
  | _ :: _ => none

/-- Conversion from a raw variant to an emitted packet variant; `adjust`
packets are never emitted. -/
def toPacketInner : RawInner → Option ProfilingPacketInner
  | .subEnter t => some (.SubroutineEnter t)
  | .subExit => some .SubroutineExit
  | .intEnter t => some (.InterruptEnter t)
  | .intExit => some .InterruptExit
  | .hblank => some .HInt
  | .vblank => some .VInt
  | .adjust => none
  | .manualBp pc => some (.ManualBreakpoint pc)

/-- Sum of the deltas (relative-cycle fields) of the cycle-offset-adjustment
packets in a raw packet list. -/
def deltaSum (rs : List RawPacket) : Nat :=
  (rs.filterMap (fun r => match r.inner with
    | .adjust => some r.rcycle
    | _ => none)).sum

/-- Modelled from the spec (claim C3 wording): the emitted packet sequence
drops every cycle-offset-adjustment packet, and each remaining packet's
absolute cycle is its relative cycle plus the cumulative deltas of all
adjustment packets that precede it in the stream, starting from offset 0. -/
def specResolve (rs : List RawPacket) : List ProfilingPacket :=
  (List.range rs.length).filterMap (fun k =>
    match rs[k]? with
    | some r => (toPacketInner r.inner).map
        (fun inn => ⟨r.rcycle + deltaSum (rs.take k), r.sp, inn⟩)
    | none => none)

/-- Running-offset resolution of a raw packet list; this is exactly what the
`cycle_offset` accumulator of `decodeLoop` computes. -/
def resolveFold (off : Nat) : List RawPacket → List ProfilingPacket
  | [] => []
  | r :: rs =>
    match toPacketInner r.inner with
    | some inn => ⟨off + r.rcycle, r.sp, inn⟩ :: resolveFold off rs
    | none => resolveFold (off + r.rcycle) rs

/-- Modelled from the spec (claim C4 wording): the byte stream after the
header is well formed when it is a sequence of whole packets, each with a
type tag at most 7 and the full fixed byte count its tag demands, ending
exactly at the end of the stream. -/
def streamOk : List Nat → Bool
  | [] => true
  | 0 :: _ :: _ :: _ :: _ :: _ :: _ :: _ :: _ :: _ :: _ :: _ :: _ :: rest => streamOk rest
  | 1 :: _ :: _ :: _ :: _ :: _ :: _ :: _ :: _ :: rest => streamOk rest
  | 2 :: _ :: _ :: _ :: _ :: _ :: _ :: _ :: _ :: _ :: _ :: _ :: _ :: rest => streamOk rest
  | 3 :: _ :: _ :: _ :: _ :: _ :: _ :: _ :: _ :: rest => streamOk rest
  | 4 :: _ :: _ :: _ :: _ :: _ :: _ :: _ :: _ :: rest => streamOk rest
  | 5 :: _ :: _ :: _ :: _ :: _ :: _ :: _ :: _ :: rest => streamOk rest
  | 6 :: _ :: _ :: _ :: _ :: _ :: _ :: _ :: _ :: rest => streamOk rest
  | 7 :: _ :: _ :: _ :: _ :: _ :: _ :: _ :: _ :: _ :: _ :: _ :: _ :: rest => streamOk rest
  | _ :: _ => false

/-- Modelled from the spec (claim C2 wording): a decoder in which a
cycle-offset-adjustment packet carries, after the tag, relative cycle and
stack pointer, an additional type-specific 4-byte delta payload that is
read and added to the running offset.  All other packet types are decoded
exactly as `decodeLoop` does. -/
def decodeLoop_claim : List Nat → Nat → Option (List ProfilingPacket)
  | [], _ => some []
  | 0 :: c0 :: c1 :: c2 :: c3 :: s0 :: s1 :: s2 :: s3 :: a0 :: a1 :: a2 :: a3 :: rest, off =>
    (decodeLoop_claim rest off).map
      (fun ps => ⟨off + le4 c0 c1 c2 c3, le4 s0 s1 s2 s3,
        .SubroutineEnter (le4 a0 a1 a2 a3)⟩ :: ps)
  | 1 :: c0 :: c1 :: c2 :: c3 :: s0 :: s1 :: s2 :: s3 :: rest, off =>
    (decodeLoop_claim rest off).map
      (fun ps => ⟨off + le4 c0 c1 c2 c3, le4 s0 s1 s2 s3, .SubroutineExit⟩ :: ps)
  | 2 :: c0 :: c1 :: c2 :: c3 :: s0 :: s1 :: s2 :: s3 :: a0 :: a1 :: a2 :: a3 :: rest, off =>
    (decodeLoop_claim rest off).map
      (fun ps => ⟨off + le4 c0 c1 c2 c3, le4 s0 s1 s2 s3,
        .InterruptEnter (le4 a0 a1 a2 a3)⟩ :: ps)
  | 3 :: c0 :: c1 :: c2 :: c3 :: s0 :: s1 :: s2 :: s3 :: rest, off =>
    (decodeLoop_claim rest off).map
      (fun ps => ⟨off + le4 c0 c1 c2 c3, le4 s0 s1 s2 s3, .InterruptExit⟩ :: ps)
  | 4 :: c0 :: c1 :: c2 :: c3 :: s0 :: s1 :: s2 :: s3 :: rest, off =>
    (decodeLoop_claim rest off).map
      (fun ps => ⟨off + le4 c0 c1 c2 c3, le4 s0 s1 s2 s3, .HInt⟩ :: ps)
  | 5 :: c0 :: c1 :: c2 :: c3 :: s0 :: s1 :: s2 :: s3 :: rest, off =>
    (decodeLoop_claim rest off).map
      (fun ps => ⟨off + le4 c0 c1 c2 c3, le4 s0 s1 s2 s3, .VInt⟩ :: ps)
  | 6 :: _ :: _ :: _ :: _ :: _ :: _ :: _ :: _ :: d0 :: d1 :: d2 :: d3 :: rest, off =>
    decodeLoop_claim rest (off + le4 d0 d1 d2 d3)
  | 7 :: c0 :: c1 :: c2 :: c3 :: s0 :: s1 :: s2 :: s3 :: a0 :: a1 :: a2 :: a3 :: rest, off =>
    (decodeLoop_claim rest off).map
      (fun ps => ⟨off + le4 c0 c1 c2 c3, le4 s0 s1 s2 s3,
        .ManualBreakpoint (le4 a0 a1 a2 a3)⟩ :: ps)
  | _ :: _, _ => none

/-- Mirror of `IntervalInfo` in intervals.rs. -/
structure IntervalInfo where
  name : String
  tid : Nat
  reached_at : Option Nat
  deriving DecidableEq, Repr

/-- Mirror of `Intervals` in intervals.rs.  The two `HashMap<u32, Vec<usize>>`
maps are modelled as total functions returning the (possibly empty) index
vector, which is exactly how `reach` reads them
(`self.ends.get(&pc).unwrap_or(&vec![])`). -/
structure Intervals where
  intervals_info : List IntervalInfo
  starts : Nat → List Nat
  ends : Nat → List Nat

/-- One iteration of the first (closing) loop of `Intervals::reach`
(intervals.rs lines 21-37): if the interval at this index is open, emit its
duration event and close it.  An index beyond the info vector would panic in
Rust; `read_intervals` only ever stores in-range indices, and the claims all
operate on in-range registries, so it is treated as a no-op here. -/
def closeStep (cycle : Nat) (mclk : ℚ) (acc : List IntervalInfo × List TraceEvent)
    (idx : Nat) : List IntervalInfo × List TraceEvent :=
  match acc.1[idx]? with
  | some info =>
    match info.reached_at with
    | some reached_at =>
      (acc.1.set idx ⟨info.name, info.tid, none⟩,
       acc.2 ++ [⟨info.name, 'X', cycle_to_us reached_at mclk,
                  cycle_to_us (cycle - reached_at) mclk, 0, info.tid, none, none⟩])
    | none => acc
  | none => acc

/-- One iteration of the second (opening) loop of `Intervals::reach`
(intervals.rs lines 38-43): a currently closed interval is opened at this
cycle; an already-open one is left untouched. -/
def openStep (cycle : Nat) (acc : List IntervalInfo) (idx : Nat) : List IntervalInfo :=
  match acc[idx]? with
  | some info =>
    match info.reached_at with
    | none => acc.set idx ⟨info.name, info.tid, some cycle⟩
    | some _ => acc
  | none => acc

/-- The first (closing) loop of `Intervals::reach`, over all interval indices
registered as ending at `pc`. -/
def closePass (self : Intervals) (pc : Nat) (trace_events : List TraceEvent)
    (cycle : Nat) (mclk : ℚ) : List IntervalInfo × List TraceEvent :=
  (self.ends pc).foldl (closeStep cycle mclk) (self.intervals_info, trace_events)

/-- Mirror of `Intervals::reach` (intervals.rs lines 20-44): process every
interval ending at `pc` (emitting duration events for the open ones and
closing them), then every interval starting at `pc` (opening the closed
ones).  Returns the updated registry and the extended event list. -/
def Intervals.reach (self : Intervals) (pc : Nat) (trace_events : List TraceEvent)
    (cycle : Nat) (mclk : ℚ) : Intervals × List TraceEvent :=
  let closed := closePass self pc trace_events cycle mclk
  let opened := (self.starts pc).foldl (openStep cycle) closed.1
  (⟨opened, self.starts, self.ends⟩, closed.2)

/-- Display name of a subroutine / interrupt target: last registered label
for the address, else the `{:#x}` hexadecimal literal (profiling.rs lines
256-259).  `address_to_label` never stores an empty label vector, so the
`labels.last().unwrap()` is modelled with a default. -/
def subName (symbols : Nat → Option (List String)) (addr : Nat) : String :=
  match symbols addr with
  | some labels => labels.getLastD ""
  | none => "0x" ++ String.mk (Nat.toDigits 16 addr)

/-- The forward scan for the matching `SubroutineExit` (profiling.rs lines
246-255): the first later exit whose stack pointer plus 4 — a wrapping u32
addition — is at least the enter's stack pointer; if none, the default
(`last_cycle`). -/
def matchExit (rest : List ProfilingPacket) (sp : Nat) (dflt : Nat) : Nat :=
  match rest with
  | [] => dflt
  | q :: qs =>
    match q.inner with
    | .SubroutineExit =>
      if sp ≤ (q.stack_pointer + 4) % 4294967296 then q.cycle else matchExit qs sp dflt
    | _ => matchExit qs sp dflt

/-- Modelled from the spec (claims C1/C9 wording): the same forward scan but
with the mathematical, non-wrapping `stack_pointer + 4`. -/
def matchExit_unbounded (rest : List ProfilingPacket) (sp : Nat) (dflt : Nat) : Nat :=
  match rest with
  | [] => dflt
  | q :: qs =>
    match q.inner with
    | .SubroutineExit =>
      if sp ≤ q.stack_pointer + 4 then q.cycle else matchExit_unbounded qs sp dflt
    | _ => matchExit_unbounded qs sp dflt

/-- The forward scan for the matching `InterruptExit` (profiling.rs lines
275-280): nearest later interrupt exit, no stack-pointer condition. -/
def matchIntExit (rest : List ProfilingPacket) (dflt : Nat) : Nat :=
  match rest with
  | [] => dflt
  | q :: qs =>
    match q.inner with
    | .InterruptExit => q.cycle
    | _ => matchIntExit qs dflt

/-- Boolean test for `SubroutineExit`, used to state the matching rule. -/
def isSubExitB : ProfilingPacketInner → Bool
  | .SubroutineExit => true
  | _ => false

/-- Mutable state of the reconstruction loop of `generate_profiling_json`:
the current thread id and the interval registry. -/
structure GenState where
  tid : Nat
  intervals : Intervals

/-- Processing of one packet in the main loop of `generate_profiling_json`
(profiling.rs lines 243-332): returns the updated state and the events this
iteration appends. -/
def processPacket (packets : List ProfilingPacket) (mclk : ℚ)
    (symbols : Nat → Option (List String)) (last_cycle : Nat)
    (st : GenState) (i : Nat) (p : ProfilingPacket) : GenState × List TraceEvent :=
  match p.inner with
  | .SubroutineEnter target_subroutine =>
    let end_cycle := matchExit (packets.drop (i+1)) p.stack_pointer last_cycle
    (st, [⟨subName symbols target_subroutine, 'X', cycle_to_us p.cycle mclk,
           cycle_to_us (end_cycle - p.cycle) mclk, 0, st.tid, none, none⟩])
  | .SubroutineExit => (st, [])
  | .InterruptEnter target_interrupt =>
    let end_cycle := matchIntExit (packets.drop (i+1)) last_cycle
    (⟨1, st.intervals⟩,
     [⟨subName symbols target_interrupt, 'X', cycle_to_us p.cycle mclk,
       cycle_to_us (end_cycle - p.cycle) mclk, 0, 1, none, none⟩])
  | .InterruptExit => (⟨0, st.intervals⟩, [])
  | .HInt => (st, [])
  | .VInt =>
    (st, [⟨"VInt", 'i', cycle_to_us p.cycle mclk, 0, 0, 1, none, some 'g'⟩])
  | .ManualBreakpoint pc =>
    let r := Intervals.reach st.intervals pc [] p.cycle mclk
    (⟨st.tid, r.1⟩, r.2)

/-- The main loop of `generate_profiling_json` over the enumerated packets. -/
def genLoop (packets : List ProfilingPacket) (mclk : ℚ)
    (symbols : Nat → Option (List String)) (last_cycle : Nat) :
    GenState → List (Nat × ProfilingPacket) → List TraceEvent
  | _, [] => []
  | st, ip :: rest =>
    let r := processPacket packets mclk symbols last_cycle st ip.1 ip.2
    r.2 ++ genLoop packets mclk symbols last_cycle r.1 rest

/-- The per-custom-thread metadata events (profiling.rs lines 208-239). -/
def customThreadEvents : List (String × Nat) → List TraceEvent
  | [] => []
  | (nm, t) :: rest =>
    ⟨"thread_name", 'M', 0, 0, 0, t, some ⟨some nm, none⟩, none⟩ ::
    ⟨"thread_sort_index", 'M', 0, 0, 0, t, some ⟨none, some t⟩, none⟩ ::
    customThreadEvents rest

/-- The metadata events emitted before any reconstructed event
(profiling.rs lines 141-239). -/
def metadataEvents (custom_threads : List (String × Nat)) : List TraceEvent :=
  [⟨"process_name", 'M', 0, 0, 0, 0, some ⟨some "M68000", none⟩, none⟩,
   ⟨"thread_name", 'M', 0, 0, 0, 0, some ⟨some "Main thread", none⟩, none⟩,
   ⟨"thread_name", 'M', 0, 0, 0, 1, some ⟨some "Interrupts", none⟩, none⟩,
   ⟨"thread_sort_index", 'M', 0, 0, 0, 0, some ⟨none, some 0⟩, none⟩,
   ⟨"thread_sort_index", 'M', 0, 0, 0, 1, some ⟨none, some 1⟩, none⟩]
  ++ customThreadEvents custom_threads

/-- Mirror of `generate_profiling_json` (profiling.rs lines 140-342),
producing the trace-event list that is serialized to JSON.  The
`custom_threads` map is taken as an association list.  Rust computes
`input.packets.last().unwrap().cycle + 1` before the loop: on an empty
packet list this panics (`none`) before any output is produced. -/
def generate_profiling_json (input : ParsedProfilingFile)
    (symbols : Nat → Option (List String)) (intervals : Intervals)
    (custom_threads : List (String × Nat)) : Option (List TraceEvent) :=
  match input.packets.getLast? with
  | none => none
  | some lastP =>
    some (metadataEvents custom_threads ++
      genLoop input.packets input.mclk symbols (lastP.cycle + 1)
        ⟨0, intervals⟩ input.packets.enum)

/-- One hexadecimal digit, as accepted by `char::to_digit(16)`. -/
def hexDigitVal? (c : Char) : Option Nat :=
  if '0' ≤ c ∧ c ≤ '9' then some (c.toNat - 48)
  else if 'a' ≤ c ∧ c ≤ 'f' then some (c.toNat - 87)
  else if 'A' ≤ c ∧ c ≤ 'F' then some (c.toNat - 55)
  else none

/-- Digit-accumulation loop of `u32::from_str_radix(_, 16)`: fails on an
invalid digit or when a checked multiply/add would exceed `u32::MAX`. -/
def hexAccum : List Char → Nat → Option Nat
  | [], acc => some acc
  | c :: cs, acc =>
    match hexDigitVal? c with
    | some d => if acc * 16 + d < 4294967296 then hexAccum cs (acc * 16 + d) else none
    | none => none

/-- Model of `u32::from_str_radix(s, 16)`: optional leading sign (a `-`
literal parses only when the value is zero, via checked unsigned
subtraction), at least one digit, overflow-checked accumulation. -/
def fromStrRadix16 (s : String) : Option Nat :=
  match s.data with
  | [] => none
  | '+' :: rest => if rest.isEmpty then none else hexAccum rest 0
  | '-' :: rest =>
    if rest.isEmpty then none else
      match hexAccum rest 0 with
      | some v => if v = 0 then some 0 else none
      | none => none
  | cs => hexAccum cs 0

/-- Byte-wise lexicographic strict order on strings (as lists of chars):
the order of Rust `String` keys in a `BTreeMap`. -/
def charListLt : List Char → List Char → Bool
  | [], [] => false
  | [], _ :: _ => true
  | _ :: _, [] => false
  | a :: as, b :: bs => if a < b then true else if b < a then false else charListLt as bs

/-- Mirror of `read_interval_elm` (intervals.rs lines 55-73).  The sorted
`BTreeMap<String, u32>` is modelled as an association list sorted strictly
by `charListLt` on the keys; `symbols.range(prefix..)` is the suffix
obtained by dropping all keys below the prefix, and the `take_while` scans
it for keys starting with the prefix, exactly as the Rust does.  A final
empty result panics (`none`). -/
def read_interval_elm (input : String) (symbols : List (String × Nat)) : Option (List Nat) :=
  match symbols.find? (fun kv => kv.1 == input) with
  | some kv => some [kv.2]
  | none =>
    match fromStrRadix16 input with
    | some address => some [address]
    | none =>
      let pfx := "mdp_label_" ++ input
      let ret := ((symbols.dropWhile (fun kv => charListLt kv.1.data pfx.data)).takeWhile
        (fun kv => pfx.data.isPrefixOf kv.1.data)).map (fun kv => kv.2)
      if ret.isEmpty then none else some ret

/-- Modelled from the spec (claim C8 wording): identical to
`read_interval_elm` except that the wildcard case collects every symbol
whose name has the bare token itself as a prefix (no `mdp_label_`
prepended). -/
def read_interval_elm_claim (input : String) (symbols : List (String × Nat)) : Option (List Nat) :=
  match symbols.find? (fun kv => kv.1 == input) with
  | some kv => some [kv.2]
  | none =>
    match fromStrRadix16 input with
    | some address => some [address]
    | none =>
      let ret := (symbols.filter (fun kv => input.data.isPrefixOf kv.1.data)).map
        (fun kv => kv.2)
      if ret.isEmpty then none else some ret

/-- An interval registry with no definitions. -/
def emptyIntervals : Intervals := ⟨[], fun _ => [], fun _ => []⟩

/-- Example byte stream: one cycle-offset-adjustment packet (tag 6, relative
cycle 5, stack pointer 0) followed by one subroutine-exit packet (tag 1,
relative cycle 7, stack pointer 0). -/
def exStream : List Nat := [6, 5, 0, 0, 0, 0, 0, 0, 0, 1, 7, 0, 0, 0, 0, 0, 0, 0]

/-- Example trace file: an all-zero 256-byte header followed by `exStream`. -/
def exInput : List Nat := List.replicate 256 0 ++ exStream

/-- Example packet list: a subroutine enter at cycle 0 with stack pointer 10,
then an exit whose stack pointer is `u32::MAX` (so the `+ 4` wraps to 3),
then an exit with stack pointer 10. -/
def exPackets : List ProfilingPacket :=
  [⟨0, 10, .SubroutineEnter 256⟩,
   ⟨5, 4294967295, .SubroutineExit⟩,
   ⟨9, 10, .SubroutineExit⟩]

/-- Example registry for the boundary-address scenario: interval 0 ("A", main
lane) is open since cycle 3 and ends at address 9; interval 1 ("B", lane 2)
is closed and starts at address 9. -/
def exRegC5 : Intervals :=
  ⟨[⟨"A", 0, some 3⟩, ⟨"B", 2, none⟩],
   fun x => if x = 9 then [1] else [],
   fun x => if x = 9 then [0] else []⟩

/-- Example registry with one closed interval starting at address 5 and
ending at address 7. -/
def exRegC6 : Intervals :=
  ⟨[⟨"x", 0, none⟩],
   fun x => if x = 5 then [0] else [],
   fun x => if x = 7 then [0] else []⟩

/-- Example registry with one closed interval whose start and end address
are both 5. -/
def exRegC7 : Intervals :=
  ⟨[⟨"x", 0, none⟩],
   fun x => if x = 5 then [0] else [],
   fun x => if x = 5 then [0] else []⟩

/-- Example sorted symbol table for wildcard resolution. -/
def exSymbols : List (String × Nat) := [("foo_bar", 5)]

/-- Example sorted symbol table with two `mdp_label_`-prefixed entries. -/
def exSymbolsW : List (String × Nat) := [("mdp_label_go", 3), ("mdp_label_gz", 4)]


set_option maxRecDepth 8000

/-- C2 counterexample: on a concrete trace the decoder consumes exactly 9
bytes for the adjustment packet (tag, relative cycle, stack pointer) and
uses the relative-cycle field as the delta — the following exit packet is
decoded at absolute cycle 5 + 7 = 12 — whereas a decoder reading an
additional 4-byte delta payload (the claim's layout) rejects the same
stream as malformed. -/
theorem c2_counterexample :
    read_profiling_file exInput = some ⟨[⟨12, 0, .SubroutineExit⟩], 0, 0⟩
    ∧ decodeLoop exStream 0 = some [⟨12, 0, .SubroutineExit⟩]
    ∧ decodeLoop_claim exStream 0 = none := by
  refine ⟨by decide, by decide, by decide⟩

/-- C2 (amended): a cycle-offset-adjustment packet consists of the 1-byte
tag, the 4-byte relative cycle and the 4-byte stack pointer only; the
relative-cycle field itself is the delta added to the running offset, and
no additional payload is read. -/
theorem c2_adjust_packet_amended (b0 b1 b2 b3 p0 p1 p2 p3 : Nat) (rest : List Nat) (off : Nat) :
    decodeLoop (6 :: b0 :: b1 :: b2 :: b3 :: p0 :: p1 :: p2 :: p3 :: rest) off
      = decodeLoop rest (off + le4 b0 b1 b2 b3) := rfl

/-- C10: `generate_profiling_json` reads the last packet's cycle before the
loop, so it panics exactly when the decoded packet sequence is empty, never
producing the metadata-only output. -/
theorem c10_empty_trace_panics (input : ParsedProfilingFile)
    (symbols : Nat → Option (List String)) (intervals : Intervals)
    (custom_threads : List (String × Nat)) :
    generate_profiling_json input symbols intervals custom_threads = none
      ↔ input.packets = [] := by
  unfold generate_profiling_json
  rcases h : input.packets.getLast? with _ | lp
  · simpa using List.getLast?_eq_none_iff.mp h
  · simp only []
    constructor
    · intro hc; exact absurd hc (by simp)
    · intro hnil; rw [hnil] at h; simp at h

/-- C10 witness: a parsed file with no packets makes the generator panic. -/
theorem c10_witness :
    generate_profiling_json ⟨[], 0, 0⟩ (fun _ => none) emptyIntervals [] = none :=
  (c10_empty_trace_panics ⟨[], 0, 0⟩ (fun _ => none) emptyIntervals []).mpr rfl

/-- C9: the frame-matching comparison adds 4 to the exit's stack pointer in
wrapping 32-bit arithmetic with no overflow guard; it agrees with the
mathematical comparison whenever every candidate exit's stack pointer is at
most 2^32 - 5, and diverges at a concrete exit whose stack pointer is
2^32 - 1. -/
theorem c9_no_overflow_guard :
    (∀ (rest : List ProfilingPacket) (sp d : Nat),
        (∀ q ∈ rest, isSubExitB q.inner = true → q.stack_pointer ≤ 4294967291) →
        matchExit rest sp d = matchExit_unbounded rest sp d)
    ∧ matchExit [⟨5, 4294967295, .SubroutineExit⟩] 10 99 = 99
    ∧ matchExit_unbounded [⟨5, 4294967295, .SubroutineExit⟩] 10 99 = 5 := by
  refine ⟨?_, by decide, by decide⟩
  intro rest sp d
  induction rest with
  | nil => intro _; rfl
  | cons q qs ih =>
    intro h
    have hqs : ∀ q' ∈ qs, isSubExitB q'.inner = true → q'.stack_pointer ≤ 4294967291 :=
      fun q' hm hx => h q' (List.mem_cons_of_mem _ hm) hx
    obtain ⟨qc, qsp, qi⟩ := q
    cases qi with
    | SubroutineExit =>
      have hb : qsp ≤ 4294967291 :=
        h ⟨qc, qsp, .SubroutineExit⟩ (List.mem_cons_self _ _) rfl
      have hmod : (qsp + 4) % 4294967296 = qsp + 4 := Nat.mod_eq_of_lt (by omega)
      show (if sp ≤ (qsp + 4) % 4294967296 then qc else matchExit qs sp d)
        = (if sp ≤ qsp + 4 then qc else matchExit_unbounded qs sp d)
      rw [hmod, ih hqs]
    | SubroutineEnter t => exact ih hqs
    | InterruptEnter t => exact ih hqs
    | InterruptExit => exact ih hqs
    | HInt => exact ih hqs
    | VInt => exact ih hqs
    | ManualBreakpoint pc => exact ih hqs

/-- C9 witness: a concrete in-range instantiation of the agreement half. -/
theorem c9_witness :
    matchExit [⟨7, 100, .SubroutineExit⟩] 50 3
      = matchExit_unbounded [⟨7, 100, .SubroutineExit⟩] 50 3 :=
  c9_no_overflow_guard.1 [⟨7, 100, .SubroutineExit⟩] 50 3 (by decide)

set_option maxHeartbeats 2000000 in
theorem decodeLoop_isSome (s : List Nat) (off : Nat) :
    (decodeLoop s off).isSome = streamOk s := by
  induction s, off using decodeLoop.induct <;> simp [decodeLoop, streamOk, *]

/-- C4: decoding the byte stream after the 256-byte header fails (panics,
yielding no packet sequence) exactly when the stream is not a sequence of
whole packets — some packet has a type tag above 7 or fewer bytes remain
than its fixed size demands — and otherwise consumes the stream to its
exact end with no trailing partial packet (`streamOk` recurses packet by
packet and accepts only at the exact end of the stream). -/
theorem c4_decode_failure_iff (input : List Nat) (h : 256 ≤ input.length) :
    ((read_profiling_file input).isSome = true ↔ streamOk (input.drop 256) = true)
    ∧ (∀ s off, (decodeLoop s off).isSome = streamOk s) := by
  constructor
  · unfold read_profiling_file
    rw [if_pos (by omega)]
    simp [decodeLoop_isSome]
  · exact decodeLoop_isSome

/-- C4 witness: the example trace decodes successfully and its packet
stream is well formed, ending exactly at the end of the input. -/
theorem c4_witness :
    (read_profiling_file exInput).isSome = true ∧ streamOk (exInput.drop 256) = true :=
  ⟨(c4_decode_failure_iff exInput (by decide)).1.mpr (by decide), by decide⟩

theorem filterMapCongr {α β : Type} {f g : α → Option β} :
    ∀ (l : List α), (∀ a ∈ l, f a = g a) → l.filterMap f = l.filterMap g := by
  intro l
  induction l with
  | nil => intro _; rfl
  | cons a l ih =>
    intro h
    rw [List.filterMap_cons, List.filterMap_cons, h a (List.mem_cons_self _ _),
      ih (fun a' hm => h a' (List.mem_cons_of_mem _ hm))]

theorem deltaSum_cons (r : RawPacket) (l : List RawPacket) :
    deltaSum (r :: l) = deltaSum [r] + deltaSum l := by
  obtain ⟨rc, rsp, ri⟩ := r
  cases ri <;> simp [deltaSum]

theorem optionMapExt {α β : Type} (o : Option α) (F G : α → β) (h : ∀ x, F x = G x) :
    o.map F = o.map G := by
  cases o <;> simp [h]

set_option maxHeartbeats 2000000 in
theorem decodeLoop_eq_parseRaw (s : List Nat) (off : Nat) :
    decodeLoop s off = (parseRaw s).map (resolveFold off) := by
  induction s, off using decodeLoop.induct <;>
    simp_all [decodeLoop, parseRaw, resolveFold, toPacketInner, Option.map_map,
      Function.comp] <;>
    (try (apply optionMapExt; intro ps; simp [Function.comp, resolveFold, toPacketInner]))

set_option maxHeartbeats 1000000 in
theorem resolveFold_eq_specAux (rs : List RawPacket) (off : Nat) :
    resolveFold off rs = (List.range rs.length).filterMap (fun k =>
      match rs[k]? with
      | some r => (toPacketInner r.inner).map
          (fun inn => ⟨off + r.rcycle + deltaSum (rs.take k), r.sp, inn⟩)
      | none => none) := by
  induction rs generalizing off with
  | nil => rfl
  | cons r rs ih =>
    rw [List.length_cons, List.range_succ_eq_map, List.filterMap_cons, List.filterMap_map]
    have htail : List.filterMap ((fun k =>
        match (r :: rs)[k]? with
        | some q => (toPacketInner q.inner).map
            (fun inn => ⟨off + q.rcycle + deltaSum ((r :: rs).take k), q.sp, inn⟩)
        | none => none) ∘ Nat.succ) (List.range rs.length)
        = resolveFold (off + deltaSum [r]) rs := by
      rw [ih]
      apply filterMapCongr
      intro k _
      rcases hq : rs[k]? with _ | q
      · simp [Function.comp, hq]
      · simp only [Function.comp, List.getElem?_cons_succ, hq]
        apply optionMapExt
        intro inn
        rw [List.take_succ_cons, deltaSum_cons]
        simp only [ProfilingPacket.mk.injEq, and_true, true_and]
        omega
    rw [htail]
    obtain ⟨rc, rsp, ri⟩ := r
    cases ri <;> simp [resolveFold, toPacketInner, deltaSum]

theorem specResolve_eq_resolveFold (rs : List RawPacket) :
    specResolve rs = resolveFold 0 rs := by
  rw [resolveFold_eq_specAux]
  unfold specResolve
  simp

/-- C3: whenever decoding succeeds, the emitted packet sequence equals the
raw wire packet sequence with every cycle-offset-adjustment packet removed
and every remaining packet's absolute cycle equal to its 4-byte relative
cycle plus the cumulative deltas of all adjustment packets preceding it in
the stream, starting from offset 0 (`specResolve`). -/
theorem c3_cycle_offset (input : List Nat) (pf : ParsedProfilingFile)
    (h : read_profiling_file input = some pf) :
    (parseRaw (input.drop 256)).map specResolve = some pf.packets := by
  unfold read_profiling_file at h
  by_cases hl : 12 ≤ input.length
  · rw [if_pos hl, decodeLoop_eq_parseRaw] at h
    rcases hp : parseRaw (input.drop 256) with _ | rs
    · rw [hp] at h
      simp at h
    · rw [hp] at h
      simp only [Option.map_some'] at h
      have hpf : pf.packets = resolveFold 0 rs := by
        have := Option.some.inj h
        rw [← this]
      rw [hpf, Option.map_some', specResolve_eq_resolveFold]
  · rw [if_neg hl] at h
    simp at h

/-- C3 witness: on the example trace (one adjustment packet with delta 5,
then an exit with relative cycle 7) the decoded sequence is the spec-side
resolution of the raw stream: a single exit at absolute cycle 12. -/
theorem c3_witness :
    (parseRaw (exInput.drop 256)).map specResolve
      = some [⟨12, 0, ProfilingPacketInner.SubroutineExit⟩] :=
  c3_cycle_offset exInput ⟨[⟨12, 0, .SubroutineExit⟩], 0, 0⟩ (by decide)

theorem matchExit_eq_find (rest : List ProfilingPacket) (sp d : Nat) :
    matchExit rest sp d =
      match rest.find? (fun q => isSubExitB q.inner
          && decide (sp ≤ (q.stack_pointer + 4) % 4294967296)) with
      | some q => q.cycle
      | none => d := by
  induction rest with
  | nil => rfl
  | cons q qs ih =>
    obtain ⟨qc, qsp, qi⟩ := q
    cases qi with
    | SubroutineExit =>
      by_cases hc : sp ≤ (qsp + 4) % 4294967296
      · simp [matchExit, List.find?_cons, isSubExitB, hc]
      · simp [matchExit, List.find?_cons, isSubExitB, hc, ih]
    | SubroutineEnter t => simpa [matchExit, List.find?_cons, isSubExitB] using ih
    | InterruptEnter t => simpa [matchExit, List.find?_cons, isSubExitB] using ih
    | InterruptExit => simpa [matchExit, List.find?_cons, isSubExitB] using ih
    | HInt => simpa [matchExit, List.find?_cons, isSubExitB] using ih
    | VInt => simpa [matchExit, List.find?_cons, isSubExitB] using ih
    | ManualBreakpoint pc => simpa [matchExit, List.find?_cons, isSubExitB] using ih

/-- C1 counterexample: in a trace whose first later exit has stack pointer
2^32 - 1, the claim's mathematical "stack pointer plus 4 is at least the
enter's stack pointer" rule selects that exit (cycle 5, so a 5 µs event at
1 MHz), but the event the code emits has duration 9 µs — the wrapping
32-bit addition turns 2^32 + 3 into 3, rejects that exit, and matches the
later exit at cycle 9 instead. -/
theorem c1_counterexample :
    (processPacket exPackets 1000000 (fun _ => none) 10 ⟨0, emptyIntervals⟩ 0
        ⟨0, 10, .SubroutineEnter 256⟩).2.map (fun ev => ev.dur) = [(9 : ℚ)]
    ∧ matchExit_unbounded (exPackets.drop 1) 10 10 = 5
    ∧ cycle_to_us (5 - 0) 1000000 = (5 : ℚ)
    ∧ (9 : ℚ) ≠ (5 : ℚ) := by
  refine ⟨?_, by decide, ?_, by norm_num⟩
  · norm_num [processPacket, exPackets, matchExit, cycle_to_us, emptyIntervals]
  · norm_num [cycle_to_us]

/-- C1 (amended): for every SubroutineEnter packet, the emitted duration
event starts at the enter's cycle and ends at the cycle of the nearest
later SubroutineExit whose stack pointer plus 4, computed in wrapping
32-bit arithmetic (mod 2^32), is greater than or equal to the enter's
stack pointer; if no such exit exists before the end of the trace, the end
cycle is the last packet's cycle plus 1. -/
theorem c1_subroutine_match_amended (packets : List ProfilingPacket) (mclk : ℚ)
    (symbols : Nat → Option (List String)) (st : GenState) (i : Nat)
    (p lp : ProfilingPacket) (t : Nat)
    (hp : packets[i]? = some p) (hinner : p.inner = .SubroutineEnter t)
    (_hlast : packets.getLast? = some lp) :
    (processPacket packets mclk symbols (lp.cycle + 1) st i p).2 =
      [⟨subName symbols t, 'X', cycle_to_us p.cycle mclk,
        cycle_to_us ((match (packets.drop (i+1)).find? (fun q => isSubExitB q.inner
            && decide (p.stack_pointer ≤ (q.stack_pointer + 4) % 4294967296)) with
          | some q => q.cycle
          | none => lp.cycle + 1) - p.cycle) mclk, 0, st.tid, none, none⟩] := by
  obtain ⟨pc, psp, pi⟩ := p
  cases hinner
  simp [processPacket, matchExit_eq_find]

/-- C1 witness: the amended matching rule applied to the example packets,
with the enter at index 0 and the trace's last packet at cycle 9: the event
spans cycles 0 to 9 (ts 0, duration 9 µs at 1 MHz). -/
theorem c1_witness :
    (processPacket exPackets 1000000 (fun _ => none) 10 ⟨0, emptyIntervals⟩ 0
        ⟨0, 10, .SubroutineEnter 256⟩).2
      = [⟨"0x100", 'X', 0, 9, 0, 0, none, none⟩] := by
  have h := c1_subroutine_match_amended exPackets 1000000 (fun _ => none)
    ⟨0, emptyIntervals⟩ 0 ⟨0, 10, .SubroutineEnter 256⟩ ⟨9, 10, .SubroutineExit⟩ 256
    (by decide) rfl (by decide)
  rw [h]
  norm_num [exPackets, cycle_to_us, isSubExitB]
  decide

theorem closeStep_oob (c : Nat) (m : ℚ) (acc : List IntervalInfo × List TraceEvent)
    (idx : Nat) (hidx : acc.1[idx]? = none) : closeStep c m acc idx = acc := by
  simp [closeStep, hidx]

theorem closeStep_closed (c : Nat) (m : ℚ) (acc : List IntervalInfo × List TraceEvent)
    (idx : Nat) (info : IntervalInfo) (hidx : acc.1[idx]? = some info)
    (h : info.reached_at = none) : closeStep c m acc idx = acc := by
  simp [closeStep, hidx, h]

theorem closeStep_open (c : Nat) (m : ℚ) (acc : List IntervalInfo × List TraceEvent)
    (idx : Nat) (info : IntervalInfo) (t : Nat) (hidx : acc.1[idx]? = some info)
    (h : info.reached_at = some t) :
    closeStep c m acc idx =
      (acc.1.set idx ⟨info.name, info.tid, none⟩,
       acc.2 ++ [⟨info.name, 'X', cycle_to_us t m, cycle_to_us (c - t) m, 0,
         info.tid, none, none⟩]) := by
  simp [closeStep, hidx, h]

theorem openStep_oob (c : Nat) (s : List IntervalInfo) (idx : Nat)
    (hidx : s[idx]? = none) : openStep c s idx = s := by
  simp [openStep, hidx]

theorem openStep_open (c : Nat) (s : List IntervalInfo) (idx : Nat)
    (info : IntervalInfo) (v : Nat) (hidx : s[idx]? = some info)
    (h : info.reached_at = some v) : openStep c s idx = s := by
  simp [openStep, hidx, h]

theorem openStep_closed (c : Nat) (s : List IntervalInfo) (idx : Nat)
    (info : IntervalInfo) (hidx : s[idx]? = some info) (h : info.reached_at = none) :
    openStep c s idx = s.set idx ⟨info.name, info.tid, some c⟩ := by
  simp [openStep, hidx, h]

theorem closeFold_events_mono (c : Nat) (m : ℚ) (l : List Nat) :
    ∀ (s : List IntervalInfo) (evs : List TraceEvent) (ev : TraceEvent), ev ∈ evs →
      ev ∈ (l.foldl (closeStep c m) (s, evs)).2 := by
  induction l with
  | nil => intro s evs ev h; simpa using h
  | cons idx l ih =>
    intro s evs ev h
    rw [List.foldl_cons]
    rcases hidx : s[idx]? with _ | info
    · rw [closeStep_oob c m (s, evs) idx hidx]
      exact ih s evs ev h
    · rcases hra : info.reached_at with _ | t
      · rw [closeStep_closed c m (s, evs) idx info hidx hra]
        exact ih s evs ev h
      · rw [closeStep_open c m (s, evs) idx info t hidx hra]
        exact ih _ _ ev (List.mem_append_left _ h)

theorem closeFold_preserves_closed (c : Nat) (m : ℚ) (l : List Nat) :
    ∀ (s : List IntervalInfo) (evs : List TraceEvent) (b : Nat) (ib : IntervalInfo),
      s[b]? = some ib → ib.reached_at = none →
      (l.foldl (closeStep c m) (s, evs)).1[b]? = some ib := by
  induction l with
  | nil => intro s evs b ib hb _; simpa using hb
  | cons idx l ih =>
    intro s evs b ib hb hclosed
    rw [List.foldl_cons]
    rcases hidx : s[idx]? with _ | info
    · rw [closeStep_oob c m (s, evs) idx hidx]
      exact ih s evs b ib hb hclosed
    · rcases hra : info.reached_at with _ | t
      · rw [closeStep_closed c m (s, evs) idx info hidx hra]
        exact ih s evs b ib hb hclosed
      · rw [closeStep_open c m (s, evs) idx info t hidx hra]
        have hne : idx ≠ b := by
          intro heq
          rw [heq, hb] at hidx
          injection hidx with h2
          rw [h2] at hclosed
          rw [hclosed] at hra
          cases hra
        apply ih
        · rw [List.getElem?_set_ne hne]
          exact hb
        · exact hclosed

theorem closeFold_skip (c : Nat) (m : ℚ) (l : List Nat) :
    ∀ (s : List IntervalInfo) (evs : List TraceEvent) (b : Nat), b ∉ l →
      (l.foldl (closeStep c m) (s, evs)).1[b]? = s[b]? := by
  induction l with
  | nil => intro s evs b _; rfl
  | cons idx l ih =>
    intro s evs b hb
    have hne : idx ≠ b := fun heq => hb (heq ▸ List.mem_cons_self _ _)
    have hbl : b ∉ l := fun hm => hb (List.mem_cons_of_mem _ hm)
    rw [List.foldl_cons]
    rcases hidx : s[idx]? with _ | info
    · rw [closeStep_oob c m (s, evs) idx hidx]
      exact ih s evs b hbl
    · rcases hra : info.reached_at with _ | t
      · rw [closeStep_closed c m (s, evs) idx info hidx hra]
        exact ih s evs b hbl
      · rw [closeStep_open c m (s, evs) idx info t hidx hra]
        rw [ih _ _ b hbl, List.getElem?_set_ne hne]

theorem closeFold_emits (c : Nat) (m : ℚ) (l : List Nat) :
    ∀ (s : List IntervalInfo) (evs : List TraceEvent) (a : Nat) (ia : IntervalInfo)
      (t : Nat), a ∈ l → s[a]? = some ia → ia.reached_at = some t →
      (l.foldl (closeStep c m) (s, evs)).1[a]? = some ⟨ia.name, ia.tid, none⟩
      ∧ (⟨ia.name, 'X', cycle_to_us t m, cycle_to_us (c - t) m, 0, ia.tid, none,
          none⟩ : TraceEvent) ∈ (l.foldl (closeStep c m) (s, evs)).2 := by
  induction l with
  | nil => intro s evs a ia t h; exact absurd h (List.not_mem_nil a)
  | cons idx l ih =>
    intro s evs a ia t hmem ha hopen
    rw [List.foldl_cons]
    by_cases heq : idx = a
    · subst heq
      rw [closeStep_open c m (s, evs) idx ia t ha hopen]
      have hlt : idx < s.length := (List.getElem?_eq_some.mp ha).1
      have hset : (s.set idx ⟨ia.name, ia.tid, none⟩)[idx]? = some ⟨ia.name, ia.tid, none⟩ :=
        List.getElem?_set_eq_of_lt _ hlt
      constructor
      · exact closeFold_preserves_closed c m l _ _ idx _ hset rfl
      · exact closeFold_events_mono c m l _ _ _
          (List.mem_append_right _ (List.mem_singleton.mpr rfl))
    · have hmem' : a ∈ l := by
        rcases List.mem_cons.mp hmem with h | h
        · exact absurd h.symm heq
        · exact h
      rcases hidx : s[idx]? with _ | info
      · rw [closeStep_oob c m (s, evs) idx hidx]
        exact ih s evs a ia t hmem' ha hopen
      · rcases hra : info.reached_at with _ | tt
        · rw [closeStep_closed c m (s, evs) idx info hidx hra]
          exact ih s evs a ia t hmem' ha hopen
        · rw [closeStep_open c m (s, evs) idx info tt hidx hra]
          refine ih _ _ a ia t hmem' ?_ hopen
          rw [List.getElem?_set_ne heq]
          exact ha

theorem closeFold_all_closed (c : Nat) (m : ℚ) (l : List Nat) :
    ∀ (s : List IntervalInfo) (evs : List TraceEvent),
      (∀ j ii, j ∈ l → s[j]? = some ii → ii.reached_at = none) →
      l.foldl (closeStep c m) (s, evs) = (s, evs) := by
  induction l with
  | nil => intro s evs _; rfl
  | cons idx l ih =>
    intro s evs h
    rw [List.foldl_cons]
    rcases hidx : s[idx]? with _ | info
    · rw [closeStep_oob c m (s, evs) idx hidx]
      exact ih s evs (fun j ii hj => h j ii (List.mem_cons_of_mem _ hj))
    · rw [closeStep_closed c m (s, evs) idx info hidx
        (h idx info (List.mem_cons_self _ _) hidx)]
      exact ih s evs (fun j ii hj => h j ii (List.mem_cons_of_mem _ hj))

theorem openFold_preserves_open (c : Nat) (l : List Nat) :
    ∀ (s : List IntervalInfo) (b : Nat) (ib : IntervalInfo) (v : Nat),
      s[b]? = some ib → ib.reached_at = some v →
      (l.foldl (openStep c) s)[b]? = some ib := by
  induction l with
  | nil => intro s b ib v hb _; simpa using hb
  | cons idx l ih =>
    intro s b ib v hb hopen
    rw [List.foldl_cons]
    rcases hidx : s[idx]? with _ | info
    · rw [openStep_oob c s idx hidx]
      exact ih s b ib v hb hopen
    · rcases hra : info.reached_at with _ | t
      · rw [openStep_closed c s idx info hidx hra]
        have hne : idx ≠ b := by
          intro heq
          rw [heq, hb] at hidx
          injection hidx with h2
          rw [h2] at hopen
          rw [hopen] at hra
          cases hra
        refine ih _ b ib v ?_ hopen
        rw [List.getElem?_set_ne hne]
        exact hb
      · rw [openStep_open c s idx info t hidx hra]
        exact ih s b ib v hb hopen

theorem openFold_skip (c : Nat) (l : List Nat) :
    ∀ (s : List IntervalInfo) (b : Nat), b ∉ l →
      (l.foldl (openStep c) s)[b]? = s[b]? := by
  induction l with
  | nil => intro s b _; rfl
  | cons idx l ih =>
    intro s b hb
    have hne : idx ≠ b := fun heq => hb (heq ▸ List.mem_cons_self _ _)
    have hbl : b ∉ l := fun hm => hb (List.mem_cons_of_mem _ hm)
    rw [List.foldl_cons]
    rcases hidx : s[idx]? with _ | info
    · rw [openStep_oob c s idx hidx]
      exact ih s b hbl
    · rcases hra : info.reached_at with _ | t
      · rw [openStep_closed c s idx info hidx hra]
        rw [ih _ b hbl, List.getElem?_set_ne hne]
      · rw [openStep_open c s idx info t hidx hra]
        exact ih s b hbl

theorem openFold_opens (c : Nat) (l : List Nat) :
    ∀ (s : List IntervalInfo) (b : Nat) (ib : IntervalInfo),
      s[b]? = some ib → ib.reached_at = none → b ∈ l →
      (l.foldl (openStep c) s)[b]? = some ⟨ib.name, ib.tid, some c⟩ := by
  induction l with
  | nil => intro s b ib _ _ h; exact absurd h (List.not_mem_nil b)
  | cons idx l ih =>
    intro s b ib hb hclosed hmem
    rw [List.foldl_cons]
    by_cases heq : idx = b
    · subst heq
      rw [openStep_closed c s idx ib hb hclosed]
      have hlt : idx < s.length := (List.getElem?_eq_some.mp hb).1
      have hset : (s.set idx ⟨ib.name, ib.tid, some c⟩)[idx]? = some ⟨ib.name, ib.tid, some c⟩ :=
        List.getElem?_set_eq_of_lt _ hlt
      exact openFold_preserves_open c l _ idx _ c hset rfl
    · have hmem' : b ∈ l := by
        rcases List.mem_cons.mp hmem with h | h
        · exact absurd h.symm heq
        · exact h
      rcases hidx : s[idx]? with _ | info
      · rw [openStep_oob c s idx hidx]
        exact ih s b ib hb hclosed hmem'
      · rcases hra : info.reached_at with _ | t
        · rw [openStep_closed c s idx info hidx hra]
          refine ih _ b ib ?_ hclosed hmem'
          rw [List.getElem?_set_ne heq]
          exact hb
        · rw [openStep_open c s idx info t hidx hra]
          exact ih s b ib hb hclosed hmem'

/-- C5: at a breakpoint hit whose address ends one open interval and starts
another (closed) interval, closing is processed before opening: after the
closing pass alone (`closePass`, the first loop of `reach`), the first
interval's duration event has been emitted and its state set to closed,
while the second interval is still closed; the full `reach` then sets the
second interval's open cycle to the hit's cycle, and the first interval's
event is in the output. -/
theorem c5_close_before_open (st : Intervals) (pc : Nat) (evs : List TraceEvent)
    (cycle : Nat) (mclk : ℚ) (a b : Nat) (ia ib : IntervalInfo) (t : Nat)
    (ha : st.intervals_info[a]? = some ia) (hopen : ia.reached_at = some t)
    (hb : st.intervals_info[b]? = some ib) (hclosed : ib.reached_at = none)
    (_hab : a ≠ b) (haend : a ∈ st.ends pc) (hbstart : b ∈ st.starts pc) :
    (closePass st pc evs cycle mclk).1[a]? = some ⟨ia.name, ia.tid, none⟩
    ∧ (⟨ia.name, 'X', cycle_to_us t mclk, cycle_to_us (cycle - t) mclk, 0, ia.tid,
        none, none⟩ : TraceEvent) ∈ (closePass st pc evs cycle mclk).2
    ∧ (closePass st pc evs cycle mclk).1[b]? = some ib
    ∧ (st.reach pc evs cycle mclk).1.intervals_info[b]? = some ⟨ib.name, ib.tid, some cycle⟩
    ∧ (⟨ia.name, 'X', cycle_to_us t mclk, cycle_to_us (cycle - t) mclk, 0, ia.tid,
        none, none⟩ : TraceEvent) ∈ (st.reach pc evs cycle mclk).2 := by
  have hclose := closeFold_emits cycle mclk (st.ends pc) st.intervals_info evs a ia t
    haend ha hopen
  have hbmid := closeFold_preserves_closed cycle mclk (st.ends pc) st.intervals_info evs
    b ib hb hclosed
  refine ⟨hclose.1, hclose.2, hbmid, ?_, hclose.2⟩
  show ((st.starts pc).foldl (openStep cycle) (closePass st pc evs cycle mclk).1)[b]?
    = some ⟨ib.name, ib.tid, some cycle⟩
  exact openFold_opens cycle (st.starts pc) _ b ib hbmid hclosed hbstart

/-- C5 witness: in `exRegC5` a hit at address 9 (cycle 42) closes interval
"A" (open since cycle 3), emits its event, and only then opens interval
"B" at cycle 42. -/
theorem c5_witness :
    (closePass exRegC5 9 [] 42 1).1[0]? = some ⟨"A", 0, none⟩
    ∧ (⟨"A", 'X', cycle_to_us 3 1, cycle_to_us (42 - 3) 1, 0, 0,
        none, none⟩ : TraceEvent) ∈ (closePass exRegC5 9 [] 42 1).2
    ∧ (closePass exRegC5 9 [] 42 1).1[1]? = some ⟨"B", 2, none⟩
    ∧ (exRegC5.reach 9 [] 42 1).1.intervals_info[1]? = some ⟨"B", 2, some 42⟩
    ∧ (⟨"A", 'X', cycle_to_us 3 1, cycle_to_us (42 - 3) 1, 0, 0,
        none, none⟩ : TraceEvent) ∈ (exRegC5.reach 9 [] 42 1).2 :=
  c5_close_before_open exRegC5 9 [] 42 1 0 1 ⟨"A", 0, some 3⟩ ⟨"B", 2, none⟩ 3
    rfl rfl rfl rfl (by decide) (by decide) (by decide)

/-- C6: an already-open interval is untouched by a further hit that is not
at one of its end addresses, so `reached_at` keeps the cycle of the first
start hit (first conjunct, fully general); and in the isolating scenario —
one interval whose start address `s` ends no interval and whose end address
`e` ends exactly it — hitting the start twice (cycles `c1`, `c2`) and then
the end (cycle `c3`) emits no event on the start hits, keeps `reached_at`
at `c1` after both, and produces exactly one duration event, timed from the
first hit. -/
theorem c6_repeated_start_idempotent (st : Intervals) (i s e : Nat) (nm : String)
    (tv : Nat) (c1 c2 c3 : Nat) (m : ℚ)
    (hinfo : st.intervals_info[i]? = some ⟨nm, tv, none⟩)
    (hs : i ∈ st.starts s) (hse : st.ends s = []) (hee : st.ends e = [i]) :
    (∀ (st2 : Intervals) (j pc : Nat) (ia : IntervalInfo) (t : Nat)
        (evs : List TraceEvent) (c : Nat),
        st2.intervals_info[j]? = some ia → ia.reached_at = some t → j ∉ st2.ends pc →
        (st2.reach pc evs c m).1.intervals_info[j]? = some ia)
    ∧ (st.reach s [] c1 m).2 = []
    ∧ (st.reach s [] c1 m).1.intervals_info[i]? = some ⟨nm, tv, some c1⟩
    ∧ ((st.reach s [] c1 m).1.reach s [] c2 m).2 = []
    ∧ ((st.reach s [] c1 m).1.reach s [] c2 m).1.intervals_info[i]? = some ⟨nm, tv, some c1⟩
    ∧ (((st.reach s [] c1 m).1.reach s [] c2 m).1.reach e [] c3 m).2
        = [⟨nm, 'X', cycle_to_us c1 m, cycle_to_us (c3 - c1) m, 0, tv, none, none⟩] := by
  have general : ∀ (st2 : Intervals) (j pc : Nat) (ia : IntervalInfo) (t : Nat)
      (evs : List TraceEvent) (c : Nat),
      st2.intervals_info[j]? = some ia → ia.reached_at = some t → j ∉ st2.ends pc →
      (st2.reach pc evs c m).1.intervals_info[j]? = some ia := by
    intro st2 j pc ia t evs c hj hopen hnotend
    show ((st2.starts pc).foldl (openStep c) (closePass st2 pc evs c m).1)[j]? = some ia
    have hmid : (closePass st2 pc evs c m).1[j]? = some ia := by
      unfold closePass
      rw [closeFold_skip c m (st2.ends pc) st2.intervals_info evs j hnotend]
      exact hj
    exact openFold_preserves_open c (st2.starts pc) _ j ia t hmid hopen
  -- first hit at the start address: ends s = [] means the closing pass is a no-op
  have hclose1 : closePass st s [] c1 m = (st.intervals_info, []) := by
    unfold closePass
    rw [hse]
    rfl
  have hev1 : (st.reach s [] c1 m).2 = [] := by
    show (closePass st s [] c1 m).2 = []
    rw [hclose1]
  have hst1 : (st.reach s [] c1 m).1.intervals_info[i]? = some ⟨nm, tv, some c1⟩ := by
    show ((st.starts s).foldl (openStep c1) (closePass st s [] c1 m).1)[i]? = _
    rw [hclose1]
    exact openFold_opens c1 (st.starts s) st.intervals_info i ⟨nm, tv, none⟩ hinfo rfl hs
  -- the registry maps are unchanged by reach
  have hmaps1s : (st.reach s [] c1 m).1.starts = st.starts := rfl
  have hmaps1e : (st.reach s [] c1 m).1.ends = st.ends := rfl
  -- second hit at the start address
  have hclose2 : closePass (st.reach s [] c1 m).1 s [] c2 m
      = ((st.reach s [] c1 m).1.intervals_info, []) := by
    unfold closePass
    rw [hmaps1e, hse]
    rfl
  have hev2 : ((st.reach s [] c1 m).1.reach s [] c2 m).2 = [] := by
    show (closePass (st.reach s [] c1 m).1 s [] c2 m).2 = []
    rw [hclose2]
  have hst2 : ((st.reach s [] c1 m).1.reach s [] c2 m).1.intervals_info[i]?
      = some ⟨nm, tv, some c1⟩ := by
    show (((st.reach s [] c1 m).1.starts s).foldl (openStep c2)
      (closePass (st.reach s [] c1 m).1 s [] c2 m).1)[i]? = _
    rw [hclose2]
    exact openFold_preserves_open c2 _ _ i ⟨nm, tv, some c1⟩ c1 hst1 rfl
  -- the end hit: ends e = [i], the interval is open at c1, one event is emitted
  have hmaps2e : ((st.reach s [] c1 m).1.reach s [] c2 m).1.ends = st.ends := rfl
  have hev3 : (((st.reach s [] c1 m).1.reach s [] c2 m).1.reach e [] c3 m).2
      = [⟨nm, 'X', cycle_to_us c1 m, cycle_to_us (c3 - c1) m, 0, tv, none, none⟩] := by
    show (closePass ((st.reach s [] c1 m).1.reach s [] c2 m).1 e [] c3 m).2 = _
    unfold closePass
    rw [hmaps2e, hee, List.foldl_cons,
      closeStep_open c3 m _ i ⟨nm, tv, some c1⟩ c1 hst2 rfl]
    rfl
  exact ⟨general, hev1, hst1, hev2, hst2, hev3⟩

/-- C6 witness: in `exRegC6` (start address 5, end address 7), hits at
cycles 10, 20 (both at address 5) and 30 (address 7) keep the open cycle at
10 and emit exactly one event spanning cycles 10 to 30. -/
theorem c6_witness :
    (exRegC6.reach 5 [] 10 1).2 = []
    ∧ (exRegC6.reach 5 [] 10 1).1.intervals_info[0]? = some ⟨"x", 0, some 10⟩
    ∧ ((exRegC6.reach 5 [] 10 1).1.reach 5 [] 20 1).2 = []
    ∧ ((exRegC6.reach 5 [] 10 1).1.reach 5 [] 20 1).1.intervals_info[0]?
        = some ⟨"x", 0, some 10⟩
    ∧ (((exRegC6.reach 5 [] 10 1).1.reach 5 [] 20 1).1.reach 7 [] 30 1).2
        = [⟨"x", 'X', cycle_to_us 10 1, cycle_to_us (30 - 10) 1, 0, 0, none, none⟩] :=
  (c6_repeated_start_idempotent exRegC6 0 5 7 "x" 0 10 20 30 1
    rfl (by decide) (by decide) (by decide)).2

/-- C7 counterexample: in `exRegC7` the single interval is closed and
address 5 is both its end and its start address.  A hit at 5 emits no event,
but the interval's state does not stay unchanged — the start pass of the
same hit opens it at the hit's cycle — refuting the claim's "its state is
left unchanged". -/
theorem c7_counterexample :
    0 ∈ exRegC7.ends 5
    ∧ exRegC7.intervals_info[0]? = some ⟨"x", 0, none⟩
    ∧ (exRegC7.reach 5 [] 100 1).2 = []
    ∧ (exRegC7.reach 5 [] 100 1).1.intervals_info[0]? = some ⟨"x", 0, some 100⟩
    ∧ (⟨"x", 0, some 100⟩ : IntervalInfo) ≠ ⟨"x", 0, none⟩ := by
  refine ⟨by decide, by decide, by decide, by decide, by decide⟩

/-- C7 (amended): a breakpoint hit at an end address of a closed interval
definition emits no event for it and leaves it unchanged through the whole
closing pass; if every definition ending at the address is closed, the hit
emits no events at all; the definition's state is unchanged by the full hit
unless the address is also one of its start addresses, in which case the
start pass of the same hit opens it at the hit's cycle. -/
theorem c7_end_hit_closed_amended (st : Intervals) (pc : Nat) (evs : List TraceEvent)
    (c : Nat) (m : ℚ) (i : Nat) (ii : IntervalInfo)
    (hi : st.intervals_info[i]? = some ii) (hclosed : ii.reached_at = none)
    (_hiend : i ∈ st.ends pc) :
    (closePass st pc evs c m).1[i]? = some ii
    ∧ ((∀ j jj, j ∈ st.ends pc → st.intervals_info[j]? = some jj → jj.reached_at = none) →
        (st.reach pc evs c m).2 = evs)
    ∧ (i ∉ st.starts pc → (st.reach pc evs c m).1.intervals_info[i]? = some ii)
    ∧ (i ∈ st.starts pc →
        (st.reach pc evs c m).1.intervals_info[i]? = some ⟨ii.name, ii.tid, some c⟩) := by
  have hmid : (closePass st pc evs c m).1[i]? = some ii :=
    closeFold_preserves_closed c m (st.ends pc) st.intervals_info evs i ii hi hclosed
  refine ⟨hmid, ?_, ?_, ?_⟩
  · intro hall
    show (closePass st pc evs c m).2 = evs
    unfold closePass
    rw [closeFold_all_closed c m (st.ends pc) st.intervals_info evs hall]
  · intro hnot
    show ((st.starts pc).foldl (openStep c) (closePass st pc evs c m).1)[i]? = some ii
    rw [openFold_skip c (st.starts pc) _ i hnot]
    exact hmid
  · intro hmem
    show ((st.starts pc).foldl (openStep c) (closePass st pc evs c m).1)[i]?
      = some ⟨ii.name, ii.tid, some c⟩
    exact openFold_opens c (st.starts pc) _ i ii hmid hclosed hmem

/-- C7 witness: in `exRegC6` a hit at address 7 (the closed interval's end
address, not one of its start addresses) emits nothing and leaves the
interval untouched. -/
theorem c7_witness :
    (closePass exRegC6 7 [] 100 1).1[0]? = some ⟨"x", 0, none⟩
    ∧ (exRegC6.reach 7 [] 100 1).2 = []
    ∧ (exRegC6.reach 7 [] 100 1).1.intervals_info[0]? = some ⟨"x", 0, none⟩ := by
  have h := c7_end_hit_closed_amended exRegC6 7 [] 100 1 0 ⟨"x", 0, none⟩ rfl rfl
    (by decide)
  refine ⟨h.1, h.2.1 ?_, h.2.2.1 (by decide)⟩
  intro j jj hj hjj
  have hj0 : j = 0 := by simpa [exRegC6] using hj
  subst hj0
  simp only [exRegC6] at hjj
  simp at hjj
  rw [← hjj]

theorem charListLt_irrefl (x : List Char) : charListLt x x = false := by
  induction x with
  | nil => rfl
  | cons a as ih => simp [charListLt, lt_irrefl, ih]

theorem charListLt_trans (x y z : List Char) (hxy : charListLt x y = true)
    (hyz : charListLt y z = true) : charListLt x z = true := by
  induction x generalizing y z with
  | nil =>
    cases z with
    | nil =>
      cases y with
      | nil => exact hxy
      | cons b bs => simp [charListLt] at hyz
    | cons c cs => rfl
  | cons a as ih =>
    cases y with
    | nil => simp [charListLt] at hxy
    | cons b bs =>
      cases z with
      | nil => simp [charListLt] at hyz
      | cons c cs =>
        simp only [charListLt] at hxy hyz ⊢
        rcases lt_trichotomy a b with hab | hab | hab
        · rcases lt_trichotomy b c with hbc | hbc | hbc
          · rw [if_pos (lt_trans hab hbc)]
          · subst hbc
            rw [if_pos hab]
          · rw [if_neg (not_lt.mpr (le_of_lt hbc)), if_pos hbc] at hyz
            exact Bool.noConfusion hyz
        · subst hab
          rw [if_neg (lt_irrefl a), if_neg (lt_irrefl a)] at hxy
          rcases lt_trichotomy a c with hac | hac | hac
          · rw [if_pos hac]
          · subst hac
            rw [if_neg (lt_irrefl a), if_neg (lt_irrefl a)] at hyz
            rw [if_neg (lt_irrefl a), if_neg (lt_irrefl a)]
            exact ih bs cs hxy hyz
          · rw [if_neg (not_lt.mpr (le_of_lt hac)), if_pos hac] at hyz
            exact Bool.noConfusion hyz
        · rw [if_neg (not_lt.mpr (le_of_lt hab)), if_pos hab] at hxy
          exact Bool.noConfusion hxy

theorem charListLt_asymm (x y : List Char) (h : charListLt x y = true) :
    charListLt y x = false := by
  by_contra hc
  have hyx : charListLt y x = true := by
    cases hyx2 : charListLt y x
    · exact absurd hyx2 hc
    · rfl
  have := charListLt_trans x y x h hyx
  rw [charListLt_irrefl] at this
  cases this

theorem charListLt_of_isPrefixOf (p : List Char) :
    ∀ (k : List Char), p.isPrefixOf k = true → charListLt k p = false := by
  induction p with
  | nil =>
    intro k _
    cases k with
    | nil => rfl
    | cons c cs => rfl
  | cons a as ih =>
    intro k hp
    cases k with
    | nil => simp [List.isPrefixOf] at hp
    | cons b bs =>
      simp only [List.isPrefixOf, Bool.and_eq_true, beq_iff_eq] at hp
      obtain ⟨hab, hrest⟩ := hp
      subst hab
      simp [charListLt, lt_irrefl, ih bs hrest]

theorem charListLt_sep (p : List Char) :
    ∀ (k1 k2 : List Char), p.isPrefixOf k1 = true → p.isPrefixOf k2 = false →
      charListLt k2 p = false → charListLt k1 k2 = true := by
  induction p with
  | nil =>
    intro k1 k2 _ h2 _
    simp [List.isPrefixOf] at h2
  | cons a as ih =>
    intro k1 k2 h1 h2 h3
    cases k1 with
    | nil => simp [List.isPrefixOf] at h1
    | cons b1 k1t =>
      simp only [List.isPrefixOf, Bool.and_eq_true, beq_iff_eq] at h1
      obtain ⟨hab1, h1t⟩ := h1
      subst hab1
      cases k2 with
      | nil => simp [charListLt] at h3
      | cons b2 k2t =>
        simp only [charListLt] at h3 ⊢
        by_cases hb2a : b2 < a
        · simp [hb2a] at h3
        · by_cases hab2 : a < b2
          · simp [hab2]
          · have heq : a = b2 := le_antisymm (not_lt.mp hb2a) (not_lt.mp hab2)
            subst heq
            simp only [if_neg hb2a, if_neg hab2] at h3 ⊢
            simp only [List.isPrefixOf, beq_self_eq_true, Bool.true_and] at h2
            exact ih k1t k2t h1t h2 (by simpa using h3)

theorem takeWhile_eq_filter_of_sorted (p : List Char) :
    ∀ (l : List (String × Nat)),
      List.Pairwise (fun x y => charListLt x.1.data y.1.data = true) l →
      (∀ kv ∈ l, charListLt kv.1.data p = false) →
      l.takeWhile (fun kv => p.isPrefixOf kv.1.data)
        = l.filter (fun kv => p.isPrefixOf kv.1.data) := by
  intro l
  induction l with
  | nil => intro _ _; rfl
  | cons kv rest ih =>
    intro hsort hge
    rcases hp : p.isPrefixOf kv.1.data with _ | _
    · -- the head fails the prefix test: takeWhile stops, and no later key can match
      rw [List.takeWhile_cons, hp, List.filter_cons, hp]
      simp only [Bool.false_eq_true, if_false]
      have hnone : ∀ r ∈ rest, p.isPrefixOf r.1.data = false := by
        intro r hr
        rcases hpr : p.isPrefixOf r.1.data with _ | _
        · rfl
        · -- p is a prefix of r but not of kv, and kv ≥ p: then r < kv,
          -- contradicting sortedness kv < r
          have hlt : charListLt r.1.data kv.1.data = true :=
            charListLt_sep p r.1.data kv.1.data hpr hp
              (hge kv (List.mem_cons_self _ _))
          have hkvr : charListLt kv.1.data r.1.data = true :=
            (List.pairwise_cons.mp hsort).1 r hr
          have := charListLt_asymm _ _ hkvr
          rw [hlt] at this
          exact Bool.noConfusion this
      rw [List.filter_eq_nil_iff.mpr ?_]
      intro r hr
      rw [hnone r hr]
      simp
    · rw [List.takeWhile_cons, hp, List.filter_cons, hp]
      simp only [if_true]
      have hsort' := (List.pairwise_cons.mp hsort).2
      have hge' : ∀ r ∈ rest, charListLt r.1.data p = false := by
        intro r hr
        rcases hrp : charListLt r.1.data p with _ | _
        · rfl
        · have hkvr : charListLt kv.1.data r.1.data = true :=
            (List.pairwise_cons.mp hsort).1 r hr
          have hkvp : charListLt kv.1.data p = true :=
            charListLt_trans _ _ _ hkvr hrp
          have := hge kv (List.mem_cons_self _ _)
          rw [hkvp] at this
          exact Bool.noConfusion this
      rw [ih hsort' hge']

theorem dropWhile_takeWhile_eq_filter (p : List Char) :
    ∀ (l : List (String × Nat)),
      List.Pairwise (fun x y => charListLt x.1.data y.1.data = true) l →
      (l.dropWhile (fun kv => charListLt kv.1.data p)).takeWhile
        (fun kv => p.isPrefixOf kv.1.data)
      = l.filter (fun kv => p.isPrefixOf kv.1.data) := by
  intro l
  induction l with
  | nil => intro _; rfl
  | cons kv rest ih =>
    intro hsort
    rcases hd : charListLt kv.1.data p with _ | _
    · -- dropWhile stops here; the whole suffix is ≥ p
      rw [List.dropWhile_cons, hd]
      simp only [Bool.false_eq_true, if_false]
      apply takeWhile_eq_filter_of_sorted p (kv :: rest) hsort
      intro r hr
      rcases List.mem_cons.mp hr with h | h
      · rw [h]; exact hd
      · rcases hrp : charListLt r.1.data p with _ | _
        · rfl
        · have hkvr : charListLt kv.1.data r.1.data = true :=
            (List.pairwise_cons.mp hsort).1 r h
          have hkvp : charListLt kv.1.data p = true :=
            charListLt_trans _ _ _ hkvr hrp
          rw [hkvp] at hd
          exact Bool.noConfusion hd
    · -- the head key is below the prefix, so it cannot start with it
      rw [List.dropWhile_cons, hd]
      simp only [if_true]
      have hp : p.isPrefixOf kv.1.data = false := by
        rcases hp2 : p.isPrefixOf kv.1.data with _ | _
        · rfl
        · have := charListLt_of_isPrefixOf p kv.1.data hp2
          rw [hd] at this
          exact Bool.noConfusion this
      rw [List.filter_cons, hp]
      simp only [Bool.false_eq_true, if_false]
      exact ih (List.pairwise_cons.mp hsort).2

/-- C8 counterexample: with symbol table `[("foo_bar", 5)]` and token
"foo" (not a symbol, not hexadecimal), the claim's wildcard — every symbol
with the bare token as a prefix — yields `[5]`, but the code prepends
`mdp_label_` to the token before the prefix scan, finds nothing, and
panics. -/
theorem c8_counterexample :
    read_interval_elm "foo" exSymbols = none
    ∧ read_interval_elm_claim "foo" exSymbols = some [5]
    ∧ (none : Option (List Nat)) ≠ some [5] :=
  ⟨by decide, by decide, by decide⟩

/-- C8 (amended): on a symbol table sorted strictly by key (as a
`BTreeMap` is), resolving an interval-definition token returns the symbol's
address if the token is a known symbol name, else its value if it parses as
a hexadecimal literal, else the addresses of every symbol whose name has
`mdp_label_` followed by the token as a prefix; it fails fatally (panics)
exactly when none of these applies (the final wildcard set is empty). -/
theorem c8_token_resolution_amended (input : String) (symbols : List (String × Nat))
    (hsort : List.Pairwise (fun x y => charListLt x.1.data y.1.data = true) symbols) :
    read_interval_elm input symbols =
      match symbols.find? (fun kv => kv.1 == input) with
      | some kv => some [kv.2]
      | none =>
        match fromStrRadix16 input with
        | some address => some [address]
        | none =>
          let m := (symbols.filter
            (fun kv => ("mdp_label_" ++ input).data.isPrefixOf kv.1.data)).map
            (fun kv => kv.2)
          if m.isEmpty then none else some m := by
  unfold read_interval_elm
  cases hf : symbols.find? (fun kv => kv.1 == input) with
  | some kv => rfl
  | none =>
    cases hx : fromStrRadix16 input with
    | some address => rfl
    | none =>
      simp only []
      rw [dropWhile_takeWhile_eq_filter ("mdp_label_" ++ input).data symbols hsort]

/-- C8 witness: token "g" against the sorted table `exSymbolsW` resolves
through the wildcard to both `mdp_label_g…` addresses, in key order. -/
theorem c8_witness : read_interval_elm "g" exSymbolsW = some [3, 4] :=
  (c8_token_resolution_amended "g" exSymbolsW (by decide)).trans (by decide)
